import Mathlib

/-!
# Verification of the polygon-based wall deriver / wall mover

This file embeds, over exact rational arithmetic, the polygon-based
building core (`deriveWalls`, `moveWall`, the seed floor plan, and the
selection state) and proves or refutes the specification's claims about
it.

Modelling conventions:
* JavaScript numbers are modelled as `ℚ` (exact arithmetic; all
  comparisons in the source use an explicit `0.01` epsilon, which is
  preserved exactly here).
* `toFixed(4)` string keys are modelled by rounding to an integer number
  of ten-thousandths, `round4 q = ⌊q * 10000 + 1/2⌋`.  This agrees with
  the source's string keys on every value appearing in the claims.
* A `Record<string, Room>` is modelled as an insertion-ordered
  `List Room`; keyed access `rooms[rid]` is modelled by lookup on the
  `id` field (the repository maintains `rooms[k].id = k`).
* A JavaScript `Set` (insertion order, first occurrence kept) is
  modelled by `dedupF`.
-/

attribute [local semireducible] Rat.add Rat.sub Rat.mul Rat.inv Rat.ofScientific

/-- `0.01`, the epsilon used by every tolerance comparison in the source. -/
def EPS : ℚ := 1 / 100

/-- The exterior wall move step (`EXTERIOR_MOVE_STEP = 0.3`). -/
def EXTERIOR_MOVE_STEP : ℚ := 3 / 10

/-- The interior wall move step (`INTERIOR_MOVE_STEP = 0.1`). -/
def INTERIOR_MOVE_STEP : ℚ := 1 / 10

/-- A vertex in the 2D floor plan (`Vertex` in the source). -/
structure Vertex where
  x : ℚ
  z : ℚ
deriving DecidableEq, Repr

/-- A room: a closed polygon given by its vertex list (`Room`). -/
structure Room where
  id : String
  name : String
  vertices : List Vertex
deriving DecidableEq, Repr

/-- The room store: `Record<string, Room>` in insertion order. -/
abbrev Rooms := List Room

/-- Wall orientation. -/
inductive Orient where
  | horizontal
  | vertical
deriving DecidableEq, Repr

/-- Wall type. -/
inductive WallType where
  | exterior
  | interior
deriving DecidableEq, Repr

/-- First-occurrence deduplication, the behaviour of a JavaScript `Set`
(and of `Map` keys) under insertion order. -/
def dedupF {α : Type} [DecidableEq α] (l : List α) : List α :=
  l.foldl (fun acc a => if a ∈ acc then acc else acc ++ [a]) []

/-- Rounding to ten-thousandths: the model of `q.toFixed(4)`. -/
def round4 (q : ℚ) : ℤ := ⌊q * 10000 + 1 / 2⌋

/-- A derived wall id: the model of the string
`wall-<orientation>-<position>-<segStart>-<segEnd>` with each number
printed via `toFixed(4)`. -/
abbrev WallId := Orient × ℤ × ℤ × ℤ

/-- Builds a wall id from its orientation, line position and span. -/
def mkWallId (o : Orient) (p s e : ℚ) : WallId :=
  (o, round4 p, round4 s, round4 e)

/-- One entry of the `allEdges` collection inside `deriveWalls`
(`EdgeInfo` in the source).  `segStart`/`segEnd` are the normalized span
along the varying axis, `dirPos` is the traversal-direction flag
(`direction === 1`). -/
structure EdgeInfo where
  roomId : String
  orient : Orient
  position : ℚ
  segStart : ℚ
  segEnd : ℚ
  dirPos : Bool
deriving DecidableEq, Repr

/-- A derived wall segment (`DerivedWall`). -/
structure DerivedWall where
  id : WallId
  type : WallType
  orientation : Orient
  start : Vertex
  endV : Vertex
  roomIds : List String
deriving DecidableEq, Repr

/-- `getRoomEdges`: each consecutive vertex pair, wrapping last to
first. -/
def getRoomEdges (room : Room) : List (Vertex × Vertex) :=
  room.vertices.zip (room.vertices.rotate 1)

/-- `normalizeEdge` fused with the direction computation of
`deriveWalls`: orientation test (`|Δz| < 0.01`), normalization to
`start ≤ end` along the varying axis, and the original traversal
direction. -/
def edgeInfoOf (rid : String) (s e : Vertex) : EdgeInfo :=
  if |s.z - e.z| < EPS then
    if s.x ≤ e.x then
      ⟨rid, .horizontal, s.z, s.x, e.x, decide (s.x < e.x)⟩
    else
      ⟨rid, .horizontal, e.z, e.x, s.x, decide (s.x < e.x)⟩
  else
    if s.z ≤ e.z then
      ⟨rid, .vertical, s.x, s.z, e.z, decide (s.z < e.z)⟩
    else
      ⟨rid, .vertical, e.x, e.z, s.z, decide (s.z < e.z)⟩

/-- All edges of all rooms, in store iteration order. -/
def allEdges (rooms : Rooms) : List EdgeInfo :=
  rooms.flatMap (fun room =>
    (getRoomEdges room).map (fun p => edgeInfoOf room.id p.1 p.2))

/-- The grouping key `${orientation}-${position.toFixed(4)}`. -/
def edgeKey (e : EdgeInfo) : Orient × ℤ := (e.orient, round4 e.position)

/-- Whether an edge's span covers the sub-segment `[segStart, segEnd]`
within epsilon (`edge.start <= segStart + 0.01 && edge.end >= segEnd -
0.01`). -/
def coversSeg (e : EdgeInfo) (segStart segEnd : ℚ) : Bool :=
  decide (e.segStart ≤ segStart + EPS) && decide (segEnd - EPS ≤ e.segEnd)

/-- The edges of a group covering the sub-segment (`deriveWalls`: the
edges contributing to `positiveEdges`/`negativeEdges`). -/
def coveringEdges (g : List EdgeInfo) (segStart segEnd : ℚ) : List EdgeInfo :=
  g.filter (fun e => coversSeg e segStart segEnd)

/-- `positiveEdges`: owning rooms of positive-direction covering edges,
in group order. -/
def posList (g : List EdgeInfo) (segStart segEnd : ℚ) : List String :=
  ((coveringEdges g segStart segEnd).filter (fun e => e.dirPos)).map (·.roomId)

/-- `negativeEdges`: owning rooms of negative-direction covering edges,
in group order. -/
def negList (g : List EdgeInfo) (segStart segEnd : ℚ) : List String :=
  ((coveringEdges g segStart segEnd).filter (fun e => !e.dirPos)).map (·.roomId)

/-- `positiveOnly`: `uniquePositive` minus the rooms also appearing in
`uniqueNegative`. -/
def posOnlyList (g : List EdgeInfo) (segStart segEnd : ℚ) : List String :=
  (dedupF (posList g segStart segEnd)).filter
    (fun r => r ∉ dedupF (negList g segStart segEnd))

/-- `negativeOnly`: `uniqueNegative` minus the rooms also appearing in
`uniquePositive`. -/
def negOnlyList (g : List EdgeInfo) (segStart segEnd : ℚ) : List String :=
  (dedupF (negList g segStart segEnd)).filter
    (fun r => r ∉ dedupF (posList g segStart segEnd))

/-- The `isInterior` classification of `deriveWalls`: for vertical
lines, a positive-only and a different negative-only room; for
horizontal lines, two or more rooms sharing a direction. -/
def isInteriorB (orient : Orient) (g : List EdgeInfo) (segStart segEnd : ℚ) : Bool :=
  match orient with
  | .vertical =>
    (posOnlyList g segStart segEnd).any
      (fun p => (negOnlyList g segStart segEnd).any (fun n => p ≠ n))
  | .horizontal =>
    decide (2 ≤ (posOnlyList g segStart segEnd).length) ||
      decide (2 ≤ (negOnlyList g segStart segEnd).length)

/-- `containingRooms`: all distinct rooms covering the sub-segment. -/
def containingList (g : List EdgeInfo) (segStart segEnd : ℚ) : List String :=
  dedupF (posList g segStart segEnd ++ negList g segStart segEnd)

/-- Processing of one sub-segment of a group: classification and wall
emission (`deriveWalls`, the body of the inner loop). -/
def mkWall (orient : Orient) (pos : ℚ) (g : List EdgeInfo)
    (segStart segEnd : ℚ) : Option DerivedWall :=
  if (containingList g segStart segEnd).isEmpty then none
  else
    some
      { id := mkWallId orient pos segStart segEnd
        type := if isInteriorB orient g segStart segEnd then .interior else .exterior
        orientation := orient
        start := if orient = .horizontal then ⟨segStart, pos⟩ else ⟨pos, segStart⟩
        endV := if orient = .horizontal then ⟨segEnd, pos⟩ else ⟨pos, segEnd⟩
        roomIds := containingList g segStart segEnd }

/-- The sorted distinct span endpoints of a group (`sortedPoints`). -/
def groupPoints (g : List EdgeInfo) : List ℚ :=
  (dedupF (g.flatMap (fun e => [e.segStart, e.segEnd]))).insertionSort (· ≤ ·)

/-- Processing of one edge group: collect the distinct span endpoints,
sort them, and emit one wall per retained consecutive sub-segment. -/
def processGroup (g : List EdgeInfo) : List DerivedWall :=
  match g with
  | [] => []
  | e0 :: _ =>
    ((groupPoints g).zip (groupPoints g).tail).filterMap
      (fun p => mkWall e0.orient e0.position g p.1 p.2)

/-- `deriveWalls`: group all edges by `(orientation, position)` key in
first-occurrence order and process each group. -/
def deriveWalls (rooms : Rooms) : List DerivedWall :=
  let es := allEdges rooms
  let keys := dedupF (es.map edgeKey)
  keys.flatMap (fun k => processGroup (es.filter (fun e => edgeKey e = k)))

/-- `createInitialRooms`: the seed L-shaped two-room floor plan. -/
def createInitialRooms : Rooms :=
  [ { id := "room1", name := "Room 1"
      vertices := [⟨0, 0⟩, ⟨4.5, 0⟩, ⟨4.5, 6⟩, ⟨0, 6⟩] }
  , { id := "room2", name := "Room 2"
      vertices := [⟨4.5, 0⟩, ⟨9, 0⟩, ⟨9, 9⟩, ⟨4.5, 9⟩] } ]

/-- `BuildingState`. -/
structure BuildingState where
  rooms : Rooms
  selectedWallId : Option WallId
  hoveredWallId : Option WallId
deriving DecidableEq, Repr

/-- The initial state. -/
def initialState : BuildingState :=
  { rooms := createInitialRooms, selectedWallId := none, hoveredWallId := none }

/-- `actions.resetBuilding`. -/
def resetBuilding (_s : BuildingState) : BuildingState :=
  { rooms := createInitialRooms, selectedWallId := none, hoveredWallId := none }

/-- Move direction. -/
inductive Dir where
  | up
  | down
  | left
  | right
deriving DecidableEq, Repr

/-- The wall's fixed-axis line coordinate (`wallPosition` in
`moveWall`). -/
def wallPos (w : DerivedWall) : ℚ :=
  if w.orientation = .horizontal then w.start.z else w.start.x

/-- The wall's span start along the varying axis (`wallRangeStart`). -/
def wallRangeLo (w : DerivedWall) : ℚ :=
  if w.orientation = .horizontal then min w.start.x w.endV.x
  else min w.start.z w.endV.z

/-- The wall's span end along the varying axis (`wallRangeEnd`). -/
def wallRangeHi (w : DerivedWall) : ℚ :=
  if w.orientation = .horizontal then max w.start.x w.endV.x
  else max w.start.z w.endV.z

/-- The direction validation of `moveWall`: horizontal walls accept
up/down, vertical walls accept left/right. -/
def validDir (w : DerivedWall) (dir : Dir) : Prop :=
  if w.orientation = .horizontal then dir = .up ∨ dir = .down
  else dir = .left ∨ dir = .right

instance (w : DerivedWall) (dir : Dir) : Decidable (validDir w dir) := by
  unfold validDir
  exact inferInstance

/-- The signed movement delta: the type's step size, negative for
up/left. -/
def moveDelta (w : DerivedWall) (dir : Dir) : ℚ :=
  let moveStep :=
    if w.type = .exterior then EXTERIOR_MOVE_STEP else INTERIOR_MOVE_STEP
  if dir = .up ∨ dir = .left then -moveStep else moveStep

/-- Keyed access `state.rooms[roomId]`. -/
def lookupRoom (rooms : Rooms) (rid : String) : Option Room :=
  rooms.find? (fun r => r.id = rid)

/-- Replacement of the room with key `rid` (in-place mutation of
`state.rooms[roomId]` in the source). -/
def updateRoom (rooms : Rooms) (rid : String) (newRoom : Room) : Rooms :=
  rooms.map (fun r => if r.id = rid then newRoom else r)

/-- Whether the edge `v1 → v2` lies on the wall's line (`isEdgeOnWallLine`). -/
def edgeOnWallLine (isH : Bool) (wallPosition : ℚ) (v1 v2 : Vertex) : Bool :=
  if isH then
    decide (|v1.z - wallPosition| < EPS) && decide (|v2.z - wallPosition| < EPS)
  else
    decide (|v1.x - wallPosition| < EPS) && decide (|v2.x - wallPosition| < EPS)

/-- The edge's span endpoint along the varying axis. -/
def edgeCoord (isH : Bool) (v : Vertex) : ℚ :=
  if isH then v.x else v.z

/-- The corner-safety full-edge-match test (`hasFullEdgeMatch` loop in
`moveWall`): some polygon edge lies on the wall's line and matches its
full range within epsilon. -/
def hasFullEdgeMatch (room : Room) (isH : Bool)
    (wallPosition wallRangeStart wallRangeEnd : ℚ) : Bool :=
  (getRoomEdges room).any (fun p =>
    edgeOnWallLine isH wallPosition p.1 p.2 &&
    decide (|min (edgeCoord isH p.1) (edgeCoord isH p.2) - wallRangeStart| < EPS) &&
    decide (|max (edgeCoord isH p.1) (edgeCoord isH p.2) - wallRangeEnd| < EPS))

/-- The room-centre test deciding on which side of the wall a room lies
(`roomCenter` / `roomIsOnPositiveSide` in `moveWall`). -/
def roomCenter (room : Room) (isH : Bool) : ℚ :=
  ((room.vertices.map (fun v => if isH then v.z else v.x)).sum) /
    (room.vertices.length : ℚ)

/-- Whether this room is on the shrinking side of the move
(`roomShrinks` in `moveWall`). -/
def roomShrinks (room : Room) (isH : Bool) (wallPosition delta : ℚ) : Bool :=
  let roomIsOnPositiveSide := decide (wallPosition < roomCenter room isH)
  let movingPositive := decide (0 < delta)
  (movingPositive && roomIsOnPositiveSide) ||
    (!movingPositive && !roomIsOnPositiveSide)

/-- The corner-safety check for interior walls: blocked when some
owning room on the shrinking side has no full-edge match. -/
def cornerBlocked (rooms : Rooms) (roomIds : List String) (isH : Bool)
    (wallPosition wallRangeStart wallRangeEnd delta : ℚ) : Bool :=
  roomIds.any (fun rid =>
    match lookupRoom rooms rid with
    | none => false
    | some room =>
      roomShrinks room isH wallPosition delta &&
        !hasFullEdgeMatch room isH wallPosition wallRangeStart wallRangeEnd)

/-- A vertex on the wall's line / moved line: `{x: a, z: b}` for
horizontal walls, `{x: b, z: a}` for vertical ones. -/
def mkVert (isH : Bool) (a b : ℚ) : Vertex :=
  if isH then ⟨a, b⟩ else ⟨b, a⟩

/-- The partial-edge step-insertion vertex construction (the `newVerts`
loop of `moveWall`, CASE 2). `i` is the index of the edge being
modified. -/
def buildNewVerts (vs : List Vertex) (i : ℕ) (isH : Bool)
    (wallPosition wallRangeStart wallRangeEnd newPosition : ℚ) : List Vertex :=
  let n := vs.length
  let nextVertexIndex := (i + 1) % n
  (List.range n).flatMap (fun j =>
    let curr := vs.getD j ⟨0, 0⟩
    let next := vs.getD ((j + 1) % n) ⟨0, 0⟩
    if j ≠ i then
      if j = nextVertexIndex then
        let vertOnWallLine :=
          if isH then decide (|curr.z - wallPosition| < EPS)
          else decide (|curr.x - wallPosition| < EPS)
        let vertCoord := if isH then curr.x else curr.z
        let vertInWallRange :=
          decide (wallRangeStart - EPS ≤ vertCoord) &&
            decide (vertCoord ≤ wallRangeEnd + EPS)
        if vertOnWallLine && vertInWallRange then [] else [curr]
      else [curr]
    else
      let currCoord := if isH then curr.x else curr.z
      let nextCoord := if isH then next.x else next.z
      if currCoord < nextCoord then
        (if currCoord < wallRangeStart - EPS then
          [curr, mkVert isH wallRangeStart wallPosition] else []) ++
        [mkVert isH wallRangeStart newPosition,
         mkVert isH wallRangeEnd newPosition] ++
        (if wallRangeEnd + EPS < nextCoord then
          [mkVert isH wallRangeEnd wallPosition] else [])
      else
        (if wallRangeEnd + EPS < currCoord then
          [curr, mkVert isH wallRangeEnd wallPosition] else []) ++
        [mkVert isH wallRangeEnd newPosition,
         mkVert isH wallRangeStart newPosition] ++
        (if nextCoord < wallRangeStart - EPS then
          [mkVert isH wallRangeStart wallPosition] else []))

/-- Collapse consecutive duplicate vertices (within epsilon) and drop a
final vertex equal to the first (the clean-up after step insertion). -/
def cleanupVerts (l : List Vertex) : List Vertex :=
  let cleaned := l.foldl (fun acc v =>
    match acc.getLast? with
    | none => [v]
    | some prev =>
      if EPS < |prev.x - v.x| ∨ EPS < |prev.z - v.z| then acc ++ [v] else acc) []
  if 1 < cleaned.length then
    match cleaned.head?, cleaned.getLast? with
    | some f, some l0 =>
      if |f.x - l0.x| < EPS ∧ |f.z - l0.z| < EPS then cleaned.dropLast else cleaned
    | _, _ => cleaned
  else cleaned

/-- The per-room mutation of `moveWall`: scan edges in order, process
the first edge on the wall's line whose span overlaps the wall's range
(then `break`).  Returns `some` of the new room when the room was
mutated (`moved` set), `none` when it was left untouched. -/
def mutateRoom (room : Room) (isH : Bool)
    (wallPosition wallRangeStart wallRangeEnd newPosition : ℚ) : Option Room :=
  let vs := room.vertices
  let n := vs.length
  match (List.range n).find? (fun i =>
      let v1 := vs.getD i ⟨0, 0⟩
      let v2 := vs.getD ((i + 1) % n) ⟨0, 0⟩
      edgeOnWallLine isH wallPosition v1 v2 &&
        !(decide (wallRangeEnd ≤ min (edgeCoord isH v1) (edgeCoord isH v2) + EPS) ||
          decide (max (edgeCoord isH v1) (edgeCoord isH v2) - EPS ≤ wallRangeStart))) with
  | none => none
  | some i =>
    let v1 := vs.getD i ⟨0, 0⟩
    let v2 := vs.getD ((i + 1) % n) ⟨0, 0⟩
    let edgeMin := min (edgeCoord isH v1) (edgeCoord isH v2)
    let edgeMax := max (edgeCoord isH v1) (edgeCoord isH v2)
    let isFullEdgeMatch :=
      |edgeMin - wallRangeStart| < EPS ∧ |edgeMax - wallRangeEnd| < EPS
    if isFullEdgeMatch then
      let v1m := if isH then { v1 with z := newPosition } else { v1 with x := newPosition }
      let v2m := if isH then { v2 with z := newPosition } else { v2 with x := newPosition }
      some { room with vertices := (vs.set i v1m).set ((i + 1) % n) v2m }
    else
      let newVerts :=
        buildNewVerts vs i isH wallPosition wallRangeStart wallRangeEnd newPosition
      let cleaned := cleanupVerts newVerts
      if 3 ≤ cleaned.length then some { room with vertices := cleaned } else none

/-- `actions.moveWall`: resolve the wall id against the freshly derived
walls, validate the direction, run the corner-safety check for interior
walls, then mutate each owning room.  Returns the move result (`null`
modelled as `none`) together with the resulting room store. -/
def moveWall (rooms : Rooms) (wallId : WallId) (dir : Dir) :
    Option WallId × Rooms :=
  let walls := deriveWalls rooms
  match walls.find? (fun w => w.id = wallId) with
  | none => (none, rooms)
  | some wall =>
    if ¬ validDir wall dir then (none, rooms)
    else
      let isH := wall.orientation = .horizontal
      let delta := moveDelta wall dir
      let wallPosition := wallPos wall
      let wallRangeStart := wallRangeLo wall
      let wallRangeEnd := wallRangeHi wall
      let newPosition := wallPosition + delta
      if wall.type = .interior ∧
          cornerBlocked rooms wall.roomIds isH wallPosition wallRangeStart
            wallRangeEnd delta then
        (none, rooms)
      else
        let step := wall.roomIds.foldl (fun (acc : Rooms × Bool) rid =>
          match lookupRoom acc.1 rid with
          | none => acc
          | some room =>
            match mutateRoom room isH wallPosition wallRangeStart wallRangeEnd
                newPosition with
            | none => acc
            | some newRoom => (updateRoom acc.1 rid newRoom, true)) (rooms, false)
        if step.2 then
          (some (mkWallId wall.orientation newPosition wallRangeStart wallRangeEnd),
           step.1)
        else (some wallId, step.1)

/-!
## Spec-side definitions

The following predicates are not code of the repository; they are
modelled from the specification's words (§3 room invariants, §4.2
classification rule, §8 properties) in order to state the claims.
-/

/-- Modelled from the spec: every edge of the polygon is axis-aligned —
both endpoints share `x` or share `z` within epsilon. -/
def axisAlignedRoom (r : Room) : Prop :=
  ∀ p ∈ getRoomEdges r, |p.1.x - p.2.x| < EPS ∨ |p.1.z - p.2.z| < EPS

instance (r : Room) : Decidable (axisAlignedRoom r) :=
  List.decidableBAll _ _

/-- Twice the signed area of the polygon (shoelace formula); positive
for clockwise winding when viewed with x rightward and z downward. -/
def signedArea2 (r : Room) : ℚ :=
  ((getRoomEdges r).map (fun p => p.1.x * p.2.z - p.2.x * p.1.z)).sum

/-- Modelled from the spec: the vertices are in clockwise winding order
(x rightward, z downward). -/
def clockwiseRoom (r : Room) : Prop :=
  0 < signedArea2 r

instance (r : Room) : Decidable (clockwiseRoom r) :=
  inferInstanceAs (Decidable (_ < _))

/-- The bounding box of an axis-aligned segment, as
`(xlo, xhi, zlo, zhi)`.  An axis-aligned segment equals its bounding
box as a point set. -/
def segBox (p : Vertex × Vertex) : ℚ × ℚ × ℚ × ℚ :=
  (min p.1.x p.2.x, max p.1.x p.2.x, min p.1.z p.2.z, max p.1.z p.2.z)

/-- Two axis-aligned segments intersect iff their boxes do. -/
def segsMeet (p q : Vertex × Vertex) : Prop :=
  max (segBox p).1 (segBox q).1 ≤ min (segBox p).2.1 (segBox q).2.1 ∧
  max (segBox p).2.2.1 (segBox q).2.2.1 ≤ min (segBox p).2.2.2 (segBox q).2.2.2

instance (p q : Vertex × Vertex) : Decidable (segsMeet p q) :=
  inferInstanceAs (Decidable (_ ∧ _))

/-- Two axis-aligned segments intersect exactly in the single point
`v`. -/
def segsMeetOnlyAt (v : Vertex) (p q : Vertex × Vertex) : Prop :=
  max (segBox p).1 (segBox q).1 = v.x ∧ min (segBox p).2.1 (segBox q).2.1 = v.x ∧
  max (segBox p).2.2.1 (segBox q).2.2.1 = v.z ∧
  min (segBox p).2.2.2 (segBox q).2.2.2 = v.z

instance (v : Vertex) (p q : Vertex × Vertex) : Decidable (segsMeetOnlyAt v p q) :=
  inferInstanceAs (Decidable (_ ∧ _))

/-- Modelled from the spec: a simple (non-self-intersecting) closed
polygon — distinct vertices, adjacent edges meeting exactly at their
shared vertex, non-adjacent edges disjoint. -/
def simpleRoom (r : Room) : Prop :=
  r.vertices.Nodup ∧
  (let es := getRoomEdges r
   let n := es.length
   ∀ i ∈ List.range n, ∀ j ∈ List.range n, i < j →
     (if j = i + 1 then
        segsMeetOnlyAt (es.getD i (⟨0, 0⟩, ⟨0, 0⟩)).2
          (es.getD i (⟨0, 0⟩, ⟨0, 0⟩)) (es.getD j (⟨0, 0⟩, ⟨0, 0⟩))
      else if i = 0 ∧ j = n - 1 then
        segsMeetOnlyAt (es.getD 0 (⟨0, 0⟩, ⟨0, 0⟩)).1
          (es.getD i (⟨0, 0⟩, ⟨0, 0⟩)) (es.getD j (⟨0, 0⟩, ⟨0, 0⟩))
      else ¬ segsMeet (es.getD i (⟨0, 0⟩, ⟨0, 0⟩)) (es.getD j (⟨0, 0⟩, ⟨0, 0⟩))))

instance (r : Room) : Decidable (simpleRoom r) := by
  unfold simpleRoom
  exact inferInstance

/-- Modelled from the spec (§3): the per-room invariants. -/
def roomInvariant (r : Room) : Prop :=
  3 ≤ r.vertices.length ∧ axisAlignedRoom r ∧ clockwiseRoom r ∧ simpleRoom r

instance (r : Room) : Decidable (roomInvariant r) :=
  inferInstanceAs (Decidable (_ ∧ _))

/-- Modelled from the spec: the room-store invariants — unique room
keys and every room satisfying the per-room invariants. -/
def storeInvariants (rooms : Rooms) : Prop :=
  (rooms.map Room.id).Nodup ∧ ∀ r ∈ rooms, roomInvariant r

instance (rooms : Rooms) : Decidable (storeInvariants rooms) :=
  inferInstanceAs (Decidable (_ ∧ _))

/-- The group of edges a wall was classified against: all edges on the
same `(orientation, toFixed(4) position)` line. -/
def wallGroup (rooms : Rooms) (o : Orient) (pos : ℚ) : List EdgeInfo :=
  (allEdges rooms).filter (fun e => edgeKey e = (o, round4 pos))

/-- The wall's span start along the varying axis. -/
def spanLo (w : DerivedWall) : ℚ :=
  if w.orientation = .horizontal then w.start.x else w.start.z

/-- The wall's span end along the varying axis. -/
def spanHi (w : DerivedWall) : ℚ :=
  if w.orientation = .horizontal then w.endV.x else w.endV.z

/-- Modelled from the spec: the set of rooms covering the sub-segment
`[s, e]` of a line with traversal direction `d`. -/
def coverRooms (g : List EdgeInfo) (d : Bool) (s e : ℚ) : Finset String :=
  ((g.filter (fun ed => coversSeg ed s e && ed.dirPos == d)).map (·.roomId)).toFinset

/-- Modelled from the spec: rooms covering `[s, e]` in the positive
direction only (both-directions rooms excluded). -/
def posOnlySet (g : List EdgeInfo) (s e : ℚ) : Finset String :=
  coverRooms g true s e \ coverRooms g false s e

/-- Modelled from the spec: rooms covering `[s, e]` in the negative
direction only (both-directions rooms excluded). -/
def negOnlySet (g : List EdgeInfo) (s e : ℚ) : Finset String :=
  coverRooms g false s e \ coverRooms g true s e

/-- Modelled from the spec (§4.2 step 5): the interior classification
rule, stated over the covering room sets. -/
def specInterior (o : Orient) (g : List EdgeInfo) (s e : ℚ) : Prop :=
  match o with
  | .vertical => ∃ p ∈ posOnlySet g s e, ∃ n ∈ negOnlySet g s e, p ≠ n
  | .horizontal => 2 ≤ (posOnlySet g s e).card ∨ 2 ≤ (negOnlySet g s e).card

/-- A wall up to the order of its `roomIds` list: the data the claims
compare wall lists by (id, type, orientation, endpoints, and the
`roomIds` as a set). -/
structure CanonWall where
  id : WallId
  type : WallType
  orientation : Orient
  start : Vertex
  endV : Vertex
  roomIdSet : Finset String
deriving DecidableEq

/-- The canonical view of a derived wall. -/
def canonWall (w : DerivedWall) : CanonWall :=
  ⟨w.id, w.type, w.orientation, w.start, w.endV, w.roomIds.toFinset⟩

/-- The set of walls (up to `roomIds` order) derived from a store. -/
def wallSet (rooms : Rooms) : Finset CanonWall :=
  ((deriveWalls rooms).map canonWall).toFinset

/-- `r'` is `r` with its vertex list rotated (same polygon, different
starting index). -/
def ReindexedRoom (r r' : Room) : Prop :=
  r'.id = r.id ∧ r'.name = r.name ∧ ∃ k, r'.vertices = r.vertices.rotate k

/-- `s₂` is `s₁` with its iteration order permuted and each room's
vertex list rotated. -/
def RoomsReindex (s₁ s₂ : Rooms) : Prop :=
  ∃ t : Rooms, s₁.Perm t ∧ List.Forall₂ ReindexedRoom t s₂

/-- All edges whose positions collide under `toFixed(4)` rounding have
exactly equal positions (true of any store whose coordinates are
multiples of `0.0001`). -/
def PositionsExact (rooms : Rooms) : Prop :=
  ∀ e ∈ allEdges rooms, ∀ e' ∈ allEdges rooms,
    edgeKey e = edgeKey e' → e.position = e'.position

instance (rooms : Rooms) : Decidable (PositionsExact rooms) := by
  unfold PositionsExact
  exact List.decidableBAll _ _

/-!
## Concrete stores used by the counterexamples and scenarios
-/

/-- Two stacked rectangles sharing the full horizontal edge `z = 3`,
`x ∈ [0, 3]`. -/
def stackedRooms : Rooms :=
  [ { id := "roomT", name := "Room T"
      vertices := [⟨0, 0⟩, ⟨3, 0⟩, ⟨3, 3⟩, ⟨0, 3⟩] }
  , { id := "roomB", name := "Room B"
      vertices := [⟨0, 3⟩, ⟨3, 3⟩, ⟨3, 6⟩, ⟨0, 6⟩] } ]

/-- Three rectangles below `z = 3` whose top edges put the endpoints
`0`, `0.005`, `0.008` on the same line, creating the tiny sub-segment
`[0, 0.005]` owned by all three rooms. -/
def partialMutationRooms : Rooms :=
  [ { id := "roomX", name := "Room X"
      vertices := [⟨-1, 3⟩, ⟨5, 3⟩, ⟨5, 4⟩, ⟨-1, 4⟩] }
  , { id := "roomY", name := "Room Y"
      vertices := [⟨0.008, 3⟩, ⟨5, 3⟩, ⟨5, 4⟩, ⟨0.008, 4⟩] }
  , { id := "roomC", name := "Room C"
      vertices := [⟨0, 3⟩, ⟨0.005, 3⟩, ⟨0.005, 4⟩, ⟨0, 4⟩] } ]

/-- A square plus a disjoint small room whose bottom edge lies on the
line `z = -0.3`, the destination of moving the square's top edge up by
one exterior step. -/
def splitDestRooms : Rooms :=
  [ { id := "roomA", name := "Room A"
      vertices := [⟨0, 0⟩, ⟨3, 0⟩, ⟨3, 3⟩, ⟨0, 3⟩] }
  , { id := "roomD", name := "Room D"
      vertices := [⟨1, -1.3⟩, ⟨2, -1.3⟩, ⟨2, -0.3⟩, ⟨1, -0.3⟩] } ]

/-- A rectangle with an upward bump of depth `0.3` over `x ∈ [0, 1]`;
moving the bump's top edge down by one exterior step rejoins the main
line and leaves duplicate vertices. -/
def bumpRoom : Rooms :=
  [ { id := "roomN", name := "Room N"
      vertices := [⟨-1, 3⟩, ⟨0, 3⟩, ⟨0, 2.7⟩, ⟨1, 2.7⟩, ⟨1, 3⟩,
                   ⟨5, 3⟩, ⟨5, 4⟩, ⟨-1, 4⟩] } ]

/-- Two plain rectangles sharing the full interior edge `x = 4.5`,
`z ∈ [0, 6]` (spec §8 scenario 3). -/
def twoRectRooms : Rooms :=
  [ { id := "room1", name := "Room 1"
      vertices := [⟨0, 0⟩, ⟨4.5, 0⟩, ⟨4.5, 6⟩, ⟨0, 6⟩] }
  , { id := "room2", name := "Room 2"
      vertices := [⟨4.5, 0⟩, ⟨9, 0⟩, ⟨9, 6⟩, ⟨4.5, 6⟩] } ]

/-- Two far-apart rectangles whose left edges sit at `x = 1.00001` and
`x = 1.00002`: distinct positions sharing one `toFixed(4)` group key. -/
def subRoundingRooms : Rooms :=
  [ { id := "roomP", name := "Room P"
      vertices := [⟨1.00001, 0⟩, ⟨2, 0⟩, ⟨2, 1⟩, ⟨1.00001, 1⟩] }
  , { id := "roomQ", name := "Room Q"
      vertices := [⟨1.00002, 2⟩, ⟨2, 2⟩, ⟨2, 3⟩, ⟨1.00002, 3⟩] } ]

/-- `subRoundingRooms` in the opposite iteration order. -/
def subRoundingRoomsRev : Rooms :=
  [ { id := "roomQ", name := "Room Q"
      vertices := [⟨1.00002, 2⟩, ⟨2, 2⟩, ⟨2, 3⟩, ⟨1.00002, 3⟩] }
  , { id := "roomP", name := "Room P"
      vertices := [⟨1.00001, 0⟩, ⟨2, 0⟩, ⟨2, 1⟩, ⟨1.00001, 1⟩] } ]

/-- The seed store with its iteration order reversed (vertex lists
unchanged). -/
def createInitialRoomsSwapped : Rooms :=
  [ { id := "room2", name := "Room 2"
      vertices := [⟨4.5, 0⟩, ⟨9, 0⟩, ⟨9, 9⟩, ⟨4.5, 9⟩] }
  , { id := "room1", name := "Room 1"
      vertices := [⟨0, 0⟩, ⟨4.5, 0⟩, ⟨4.5, 6⟩, ⟨0, 6⟩] } ]

/-- The seed store with its iteration order reversed and each room's
vertex list rotated (Room 2 by 1, Room 1 by 2). -/
def createInitialRoomsReindexed : Rooms :=
  [ { id := "room2", name := "Room 2"
      vertices := [⟨9, 0⟩, ⟨9, 9⟩, ⟨4.5, 9⟩, ⟨4.5, 0⟩] }
  , { id := "room1", name := "Room 1"
      vertices := [⟨4.5, 6⟩, ⟨0, 6⟩, ⟨0, 0⟩, ⟨4.5, 0⟩] } ]

/-- The seed's interior wall at `x = 4.5`, `z ∈ [0, 6]`, as derived by
`deriveWalls createInitialRooms`. -/
def seedInteriorWall : DerivedWall :=
  { id := (.vertical, 45000, 0, 60000), type := .interior,
    orientation := .vertical, start := ⟨4.5, 0⟩, endV := ⟨4.5, 6⟩,
    roomIds := ["room1", "room2"] }

/-!
## Claim theorems: concrete scenarios and counterexamples
-/

set_option maxRecDepth 100000

/-- C1: on the seed two-room floor plan created by `createInitialRooms`
(and restored by `resetBuilding`), `deriveWalls` returns a wall at
`x = 4.5` spanning `z ∈ [0, 6]` classified interior with
`roomIds = {room1, room2}`, and a wall at `x = 9` spanning `z ∈ [0, 9]`
classified exterior with `roomIds = {room2}`. -/
theorem seed_derived_walls_classified :
    (∃ w ∈ deriveWalls createInitialRooms,
        w.type = .interior ∧ w.orientation = .vertical ∧
        w.start = ⟨4.5, 0⟩ ∧ w.endV = ⟨4.5, 6⟩ ∧
        w.roomIds.toFinset = {"room1", "room2"}) ∧
    (∃ w ∈ deriveWalls createInitialRooms,
        w.type = .exterior ∧ w.orientation = .vertical ∧
        w.start = ⟨9, 0⟩ ∧ w.endV = ⟨9, 9⟩ ∧
        w.roomIds.toFinset = {"room2"}) ∧
    (∀ s : BuildingState, (resetBuilding s).rooms = createInitialRooms) :=
  ⟨by decide, by decide, fun _ => rfl⟩

/-- Witness for C1: the reset clause applied to the initial state. -/
theorem seed_derived_walls_classified_witness :
    (resetBuilding initialState).rooms = createInitialRooms :=
  seed_derived_walls_classified.2.2 initialState

/-- C9 counterexample: the seed's Room 2 has the 4-vertex rectangle
vertex list, not the claimed 5-vertex pentagon list ending in
`(4.5, 6)`. -/
theorem seed_room2_is_rectangle_not_pentagon :
    (lookupRoom createInitialRooms "room2").map Room.vertices =
      some [⟨4.5, 0⟩, ⟨9, 0⟩, ⟨9, 9⟩, ⟨4.5, 9⟩] ∧
    (lookupRoom createInitialRooms "room2").map Room.vertices ≠
      some [⟨4.5, 0⟩, ⟨9, 0⟩, ⟨9, 9⟩, ⟨4.5, 9⟩, ⟨4.5, 6⟩] := by
  decide

/-- C9 amended: the seed floor plan consists of exactly Room 1, the
rectangle `(0,0)-(4.5,0)-(4.5,6)-(0,6)`, and Room 2, the rectangle
`(4.5,0)-(9,0)-(9,9)-(4.5,9)` (the same region as the spec's pentagon,
without the collinear vertex `(4.5, 6)`), both clockwise; this exact
store is restored by `resetBuilding`. -/
theorem seed_rooms_exact :
    createInitialRooms =
      [ { id := "room1", name := "Room 1"
          vertices := [⟨0, 0⟩, ⟨4.5, 0⟩, ⟨4.5, 6⟩, ⟨0, 6⟩] }
      , { id := "room2", name := "Room 2"
          vertices := [⟨4.5, 0⟩, ⟨9, 0⟩, ⟨9, 9⟩, ⟨4.5, 9⟩] } ] ∧
    (∀ r ∈ createInitialRooms, clockwiseRoom r) ∧
    (∀ s : BuildingState, (resetBuilding s).rooms = createInitialRooms) :=
  ⟨rfl, by decide, fun _ => rfl⟩

/-- Witness for C9's amended theorem: the reset clause applied to the
initial state. -/
theorem seed_rooms_exact_witness :
    (resetBuilding initialState).rooms = createInitialRooms :=
  seed_rooms_exact.2.2 initialState

/-- C7 counterexample: two stacked rooms satisfying the room invariants
whose shared horizontal boundary is classified exterior with 2 distinct
`roomIds` (the claim requires exactly 1 for exterior walls). -/
theorem stacked_rooms_exterior_two_roomIds :
    storeInvariants stackedRooms ∧
    ∃ w ∈ deriveWalls stackedRooms,
      w.type = .exterior ∧ w.roomIds.toFinset.card = 2 := by
  decide

/-- C6 (code bug): on a valid store — a rectangle with an upward bump of
depth `0.3` — moving the bump's top wall down by one exterior step
succeeds but leaves the room with duplicate consecutive vertices,
violating the simple-polygon room invariant that the claim (and the
spec's §8 property) requires to be preserved. -/
theorem moveWall_invariant_violation :
    storeInvariants bumpRoom ∧
    (moveWall bumpRoom (.horizontal, 27000, 0, 10000) .down).1 =
      some (.horizontal, 30000, 0, 10000) ∧
    (moveWall bumpRoom (.horizontal, 27000, 0, 10000) .down).2 ≠ bumpRoom ∧
    ∃ r ∈ (moveWall bumpRoom (.horizontal, 27000, 0, 10000) .down).2,
      ¬ r.vertices.Nodup ∧ ¬ roomInvariant r := by
  decide

/-- C4 counterexample: a store of three invariant-satisfying rooms in
which `moveWall` succeeds, mutates the owning room `roomX`, and leaves
the owning rooms `roomY` and `roomC` untouched — a partial update of
the wall's owning rooms. -/
theorem moveWall_partial_mutation :
    storeInvariants partialMutationRooms ∧
    ((deriveWalls partialMutationRooms).find?
        (fun x => x.id = (.horizontal, 30000, 0, 50))).map
      DerivedWall.roomIds = some ["roomX", "roomY", "roomC"] ∧
    (moveWall partialMutationRooms (.horizontal, 30000, 0, 50) .up).1 =
      some (.horizontal, 29000, 0, 50) ∧
    lookupRoom (moveWall partialMutationRooms (.horizontal, 30000, 0, 50) .up).2
        "roomX" ≠ lookupRoom partialMutationRooms "roomX" ∧
    lookupRoom (moveWall partialMutationRooms (.horizontal, 30000, 0, 50) .up).2
        "roomY" = lookupRoom partialMutationRooms "roomY" ∧
    lookupRoom (moveWall partialMutationRooms (.horizontal, 30000, 0, 50) .up).2
        "roomC" = lookupRoom partialMutationRooms "roomC" := by
  decide

/-- C5 counterexample: a store of two disjoint invariant-satisfying
rooms where the moved wall's extent equals a full polygon edge of its
only owning room and the move succeeds, yet the re-derived walls of the
mutated store contain no wall at the shifted position with the original
span (the destination line carries another room's edge, which splits
the moved wall into several sub-segments). -/
theorem full_edge_move_split_at_destination :
    storeInvariants splitDestRooms ∧
    ((deriveWalls splitDestRooms).find?
        (fun x => x.id = (.horizontal, 0, 0, 30000))).map
      DerivedWall.roomIds = some ["roomA"] ∧
    (∀ room ∈ splitDestRooms, room.id = "roomA" →
      hasFullEdgeMatch room true 0 0 3 = true) ∧
    (moveWall splitDestRooms (.horizontal, 0, 0, 30000) .up).1 =
      some (.horizontal, -3000, 0, 30000) ∧
    (moveWall splitDestRooms (.horizontal, 0, 0, 30000) .up).2 ≠
      splitDestRooms ∧
    ¬ ∃ w ∈ deriveWalls (moveWall splitDestRooms (.horizontal, 0, 0, 30000) .up).2,
        w.start = ⟨0, -0.3⟩ ∧ w.endV = ⟨3, -0.3⟩ := by
  decide

/-- C5 amended: on spec §8 scenario 3's two plain rectangles sharing the
full interior edge `x = 4.5, z ∈ [0, 6]`, moving that wall right
succeeds, each room remains a 4-vertex rectangle, and re-deriving walls
yields the moved wall at `x = 4.6` (shifted by exactly the interior
step) with its span `z ∈ [0, 6]` unchanged.  (The unrestricted claim
fails when unrelated edges lie on the destination line.) -/
theorem two_rect_full_edge_move_shifts_wall :
    (moveWall twoRectRooms (.vertical, 45000, 0, 60000) .right).1 =
      some (.vertical, 46000, 0, 60000) ∧
    (moveWall twoRectRooms (.vertical, 45000, 0, 60000) .right).2 =
      [ { id := "room1", name := "Room 1"
          vertices := [⟨0, 0⟩, ⟨4.6, 0⟩, ⟨4.6, 6⟩, ⟨0, 6⟩] }
      , { id := "room2", name := "Room 2"
          vertices := [⟨4.6, 0⟩, ⟨9, 0⟩, ⟨9, 6⟩, ⟨4.6, 6⟩] } ] ∧
    (∃ w ∈ deriveWalls (moveWall twoRectRooms (.vertical, 45000, 0, 60000) .right).2,
        w.type = .interior ∧ w.start = ⟨4.6, 0⟩ ∧ w.endV = ⟨4.6, 6⟩ ∧
        w.roomIds.toFinset = {"room1", "room2"}) := by
  decide

/-!
## Infrastructure lemmas
-/

theorem foldl_dedup_mem {α : Type} [DecidableEq α] (l : List α) (acc : List α) (a : α) :
    (a ∈ l.foldl (fun acc b => if b ∈ acc then acc else acc ++ [b]) acc) ↔
      a ∈ acc ∨ a ∈ l := by
  induction l generalizing acc with
  | nil => simp
  | cons b t ih =>
    simp only [List.foldl_cons]
    rw [ih]
    by_cases hb : b ∈ acc
    · simp only [if_pos hb, List.mem_cons]
      constructor
      · rintro (h | h)
        · exact Or.inl h
        · exact Or.inr (Or.inr h)
      · rintro (h | rfl | h)
        · exact Or.inl h
        · exact Or.inl hb
        · exact Or.inr h
    · simp only [if_neg hb, List.mem_append, List.mem_singleton, List.mem_cons]
      tauto

theorem foldl_dedup_nodup {α : Type} [DecidableEq α] (l : List α) (acc : List α)
    (h : acc.Nodup) :
    (l.foldl (fun acc b => if b ∈ acc then acc else acc ++ [b]) acc).Nodup := by
  induction l generalizing acc with
  | nil => simpa
  | cons b t ih =>
    simp only [List.foldl_cons]
    apply ih
    by_cases hb : b ∈ acc
    · simpa [hb]
    · rw [if_neg hb, List.nodup_append]
      refine ⟨h, List.nodup_singleton b, ?_⟩
      intro x hx hxb
      rw [List.mem_singleton] at hxb
      exact hb (hxb ▸ hx)

theorem mem_dedupF {α : Type} [DecidableEq α] (l : List α) (a : α) :
    a ∈ dedupF l ↔ a ∈ l := by
  unfold dedupF
  rw [foldl_dedup_mem]
  simp

theorem nodup_dedupF {α : Type} [DecidableEq α] (l : List α) : (dedupF l).Nodup :=
  foldl_dedup_nodup l [] List.nodup_nil

theorem toFinset_dedupF {α : Type} [DecidableEq α] (l : List α) :
    (dedupF l).toFinset = l.toFinset := by
  ext a
  simp [List.mem_toFinset, mem_dedupF]

theorem dedupF_eq_nil_iff {α : Type} [DecidableEq α] (l : List α) :
    dedupF l = [] ↔ l = [] := by
  constructor
  · intro h
    rw [List.eq_nil_iff_forall_not_mem]
    intro a ha
    exact (List.eq_nil_iff_forall_not_mem.mp h a) ((mem_dedupF l a).mpr ha)
  · rintro rfl
    rfl

theorem groupPoints_sorted (g : List EdgeInfo) :
    (groupPoints g).Sorted (· ≤ ·) :=
  List.sorted_insertionSort _ _

theorem groupPoints_nodup (g : List EdgeInfo) : (groupPoints g).Nodup :=
  (List.perm_insertionSort _ _).nodup_iff.mpr (nodup_dedupF _)

theorem zip_tail_lt {l : List ℚ} (hs : l.Sorted (· ≤ ·)) (hn : l.Nodup) :
    ∀ p ∈ l.zip l.tail, p.1 < p.2 := by
  induction l with
  | nil => simp
  | cons a t ih =>
    cases t with
    | nil => simp
    | cons b t2 =>
      intro p hp
      rw [List.tail_cons, List.zip_cons_cons, List.mem_cons] at hp
      rcases hp with rfl | hp
      · have hab : a ≤ b := (List.sorted_cons.mp hs).1 b (List.mem_cons_self b t2)
        have hne : a ≠ b := by
          intro h
          exact (List.nodup_cons.mp hn).1 (h ▸ List.mem_cons_self b t2)
        exact lt_of_le_of_ne hab hne
      · have : p ∈ (b :: t2).zip (b :: t2).tail := by
          rw [List.tail_cons]
          exact hp
        exact ih (List.sorted_cons.mp hs).2 (List.nodup_cons.mp hn).2 p this

theorem of_mem_deriveWalls {rooms : Rooms} {w : DerivedWall}
    (hw : w ∈ deriveWalls rooms) :
    ∃ k ∈ dedupF ((allEdges rooms).map edgeKey),
      w ∈ processGroup ((allEdges rooms).filter (fun e => edgeKey e = k)) := by
  unfold deriveWalls at hw
  simpa [List.mem_flatMap] using hw

theorem of_mem_processGroup {g : List EdgeInfo} {w : DerivedWall}
    (hw : w ∈ processGroup g) :
    ∃ e0, g.head? = some e0 ∧
      ∃ p ∈ (groupPoints g).zip (groupPoints g).tail,
        mkWall e0.orient e0.position g p.1 p.2 = some w := by
  match g with
  | [] => cases hw
  | e0 :: rest =>
    unfold processGroup at hw
    rw [List.mem_filterMap] at hw
    obtain ⟨p, hp, hmk⟩ := hw
    exact ⟨e0, rfl, p, hp, hmk⟩

theorem mkWall_eq_some {o : Orient} {pos : ℚ} {g : List EdgeInfo} {s e : ℚ}
    {w : DerivedWall} (h : mkWall o pos g s e = some w) :
    containingList g s e ≠ [] ∧
    w.id = mkWallId o pos s e ∧
    w.type = (if isInteriorB o g s e then .interior else .exterior) ∧
    w.orientation = o ∧
    w.start = (if o = .horizontal then (⟨s, pos⟩ : Vertex) else ⟨pos, s⟩) ∧
    w.endV = (if o = .horizontal then (⟨e, pos⟩ : Vertex) else ⟨pos, e⟩) ∧
    w.roomIds = containingList g s e := by
  unfold mkWall at h
  split at h
  · cases h
  · next hne =>
    have hne2 : containingList g s e ≠ [] := by
      intro hx
      rw [hx] at hne
      exact hne rfl
    injection h with h
    subst h
    exact ⟨hne2, rfl, rfl, rfl, rfl, rfl, rfl⟩

/-!
## Claim theorems: general properties
-/

/-- C3: for every interior wall and valid direction, if some owning room
on the shrinking side (per the room-centre test) has no edge exactly
matching the wall's line position and full span, `moveWall` returns
`null` and the room store is left completely unchanged. -/
theorem moveWall_blocked_of_shrinking_partial
    (rooms : Rooms) (wid : WallId) (dir : Dir) (wall : DerivedWall)
    (hfind : (deriveWalls rooms).find? (fun w => w.id = wid) = some wall)
    (hint : wall.type = .interior)
    (hdir : validDir wall dir)
    (rid : String) (room : Room)
    (hmem : rid ∈ wall.roomIds)
    (hlook : lookupRoom rooms rid = some room)
    (hshrink : roomShrinks room (wall.orientation = .horizontal) (wallPos wall)
        (moveDelta wall dir) = true)
    (hnomatch : hasFullEdgeMatch room (wall.orientation = .horizontal)
        (wallPos wall) (wallRangeLo wall) (wallRangeHi wall) = false) :
    moveWall rooms wid dir = (none, rooms) := by
  have hb : cornerBlocked rooms wall.roomIds (wall.orientation = .horizontal)
      (wallPos wall) (wallRangeLo wall) (wallRangeHi wall) (moveDelta wall dir) =
        true := by
    unfold cornerBlocked
    rw [List.any_eq_true]
    refine ⟨rid, hmem, ?_⟩
    rw [hlook]
    simp [hshrink, hnomatch]
  simp only [moveWall]
  rw [hfind]
  simp [hdir, hint, hb]

/-- Witness for C3: on the seed store, moving the interior wall at
`x = 4.5, z ∈ [0, 6]` to the right is blocked (Room 2, the shrinking
room, has only the partial edge `z ∈ [0, 9]` on that line) and the
store is unchanged. -/
theorem moveWall_blocked_of_shrinking_partial_witness :
    moveWall createInitialRooms (.vertical, 45000, 0, 60000) .right =
      (none, createInitialRooms) := by
  refine moveWall_blocked_of_shrinking_partial createInitialRooms
    (.vertical, 45000, 0, 60000) .right
    { id := (.vertical, 45000, 0, 60000), type := .interior,
      orientation := .vertical, start := ⟨4.5, 0⟩, endV := ⟨4.5, 6⟩,
      roomIds := ["room1", "room2"] }
    (by decide) rfl (by decide) "room2"
    { id := "room2", name := "Room 2"
      vertices := [⟨4.5, 0⟩, ⟨9, 0⟩, ⟨9, 9⟩, ⟨4.5, 9⟩] }
    (by decide) (by decide) (by decide) (by decide)

/-- C4 amended (failure half): whenever `moveWall` fails (returns
`null`), the room store is left completely unchanged — validation and
the corner-safety check run before any mutation. -/
theorem moveWall_none_unchanged (rooms : Rooms) (wid : WallId) (dir : Dir) :
    (moveWall rooms wid dir).1 = none → (moveWall rooms wid dir).2 = rooms := by
  simp only [moveWall]
  split
  · intro _
    rfl
  · split
    · intro _
      rfl
    · split
      · intro _
        rfl
      · split
        · intro h
          exact absurd h (by simp)
        · intro h
          exact absurd h (by simp)

/-- Witness for C4's amended theorem: an invalid direction (up, on the
seed's vertical interior wall) fails and leaves the seed store
unchanged. -/
theorem moveWall_none_unchanged_witness :
    (moveWall createInitialRooms (.vertical, 45000, 0, 60000) .up).2 =
      createInitialRooms :=
  moveWall_none_unchanged createInitialRooms (.vertical, 45000, 0, 60000) .up
    (by decide)

theorem mem_posList_iff (g : List EdgeInfo) (s e : ℚ) (r : String) :
    r ∈ posList g s e ↔ r ∈ coverRooms g true s e := by
  simp only [posList, coveringEdges, coverRooms, List.mem_map, List.mem_filter,
    List.mem_toFinset, Bool.and_eq_true, beq_iff_eq, decide_eq_true_eq]
  aesop

theorem mem_negList_iff (g : List EdgeInfo) (s e : ℚ) (r : String) :
    r ∈ negList g s e ↔ r ∈ coverRooms g false s e := by
  simp only [negList, coveringEdges, coverRooms, List.mem_map, List.mem_filter,
    List.mem_toFinset, Bool.and_eq_true, beq_iff_eq, decide_eq_true_eq,
    Bool.not_eq_true']
  aesop

theorem mem_posOnlyList_iff (g : List EdgeInfo) (s e : ℚ) (r : String) :
    r ∈ posOnlyList g s e ↔ r ∈ posOnlySet g s e := by
  simp only [posOnlyList, posOnlySet, List.mem_filter, mem_dedupF,
    Finset.mem_sdiff, mem_posList_iff, mem_negList_iff, decide_eq_true_eq]

theorem mem_negOnlyList_iff (g : List EdgeInfo) (s e : ℚ) (r : String) :
    r ∈ negOnlyList g s e ↔ r ∈ negOnlySet g s e := by
  simp only [negOnlyList, negOnlySet, List.mem_filter, mem_dedupF,
    Finset.mem_sdiff, mem_posList_iff, mem_negList_iff, decide_eq_true_eq]

theorem posOnlyList_nodup (g : List EdgeInfo) (s e : ℚ) :
    (posOnlyList g s e).Nodup :=
  (nodup_dedupF _).filter _

theorem negOnlyList_nodup (g : List EdgeInfo) (s e : ℚ) :
    (negOnlyList g s e).Nodup :=
  (nodup_dedupF _).filter _

theorem posOnlyList_length (g : List EdgeInfo) (s e : ℚ) :
    (posOnlyList g s e).length = (posOnlySet g s e).card := by
  rw [← List.toFinset_card_of_nodup (posOnlyList_nodup g s e)]
  congr 1
  ext r
  rw [List.mem_toFinset, mem_posOnlyList_iff]

theorem negOnlyList_length (g : List EdgeInfo) (s e : ℚ) :
    (negOnlyList g s e).length = (negOnlySet g s e).card := by
  rw [← List.toFinset_card_of_nodup (negOnlyList_nodup g s e)]
  congr 1
  ext r
  rw [List.mem_toFinset, mem_negOnlyList_iff]

theorem mem_containing_of_posOnly {g : List EdgeInfo} {s e : ℚ} {r : String}
    (h : r ∈ posOnlyList g s e) : r ∈ containingList g s e := by
  rw [containingList, mem_dedupF, List.mem_append]
  rw [posOnlyList, List.mem_filter, mem_dedupF] at h
  exact Or.inl h.1

theorem mem_containing_of_negOnly {g : List EdgeInfo} {s e : ℚ} {r : String}
    (h : r ∈ negOnlyList g s e) : r ∈ containingList g s e := by
  rw [containingList, mem_dedupF, List.mem_append]
  rw [negOnlyList, List.mem_filter, mem_dedupF] at h
  exact Or.inr h.1

theorem two_le_length_exists {l : List String} (hn : l.Nodup) (h2 : 2 ≤ l.length) :
    ∃ a ∈ l, ∃ b ∈ l, a ≠ b := by
  match l, h2 with
  | a :: b :: rest, _ =>
    refine ⟨a, List.mem_cons_self a _, b,
      List.mem_cons_of_mem a (List.mem_cons_self b rest), ?_⟩
    intro hx
    rw [List.nodup_cons] at hn
    refine hn.1 ?_
    rw [hx]
    exact List.mem_cons_self b rest

theorem mkWall_coords {o : Orient} {pos : ℚ} {g : List EdgeInfo} {s e : ℚ}
    {w : DerivedWall} (h : mkWall o pos g s e = some w) :
    w.orientation = o ∧ wallPos w = pos ∧ spanLo w = s ∧ spanHi w = e := by
  obtain ⟨_, _, _, horient, hstart, hend, _⟩ := mkWall_eq_some h
  cases o with
  | horizontal =>
    rw [if_pos rfl] at hstart hend
    exact ⟨horient, by simp [wallPos, horient, hstart],
      by simp [spanLo, horient, hstart], by simp [spanHi, horient, hend]⟩
  | vertical =>
    rw [if_neg (by simp)] at hstart hend
    exact ⟨horient, by simp [wallPos, horient, hstart],
      by simp [spanLo, horient, hstart], by simp [spanHi, horient, hend]⟩

theorem isInteriorB_iff_specInterior (o : Orient) (g : List EdgeInfo) (s e : ℚ) :
    isInteriorB o g s e = true ↔ specInterior o g s e := by
  cases o with
  | vertical =>
    simp only [isInteriorB, specInterior, List.any_eq_true, decide_eq_true_eq]
    constructor
    · rintro ⟨p, hp, n, hn, hpn⟩
      exact ⟨p, (mem_posOnlyList_iff g s e p).mp hp,
        n, (mem_negOnlyList_iff g s e n).mp hn, hpn⟩
    · rintro ⟨p, hp, n, hn, hpn⟩
      exact ⟨p, (mem_posOnlyList_iff g s e p).mpr hp,
        n, (mem_negOnlyList_iff g s e n).mpr hn, hpn⟩
  | horizontal =>
    simp only [isInteriorB, specInterior, Bool.or_eq_true, decide_eq_true_eq,
      posOnlyList_length, negOnlyList_length]

/-- C2: for every input room map, a wall emitted by `deriveWalls` is
interior iff the spec's classification rule holds of the covering room
sets of its sub-segment — on a vertical line, some positive-only room
and a different negative-only room (after excluding rooms covering in
both directions); on a horizontal line, two or more distinct rooms
with the same traversal direction; every other retained sub-segment is
exterior. -/
theorem deriveWalls_interior_iff (rooms : Rooms) :
    ∀ w ∈ deriveWalls rooms,
      (w.type = .interior ↔
        specInterior w.orientation
          (wallGroup rooms w.orientation (wallPos w)) (spanLo w) (spanHi w)) := by
  intro w hw
  obtain ⟨k, _, hpg⟩ := of_mem_deriveWalls hw
  obtain ⟨e0, hhead, p, _, hmk⟩ := of_mem_processGroup hpg
  obtain ⟨_, _, htype, _, _, _, _⟩ := mkWall_eq_some hmk
  obtain ⟨horient, hpos, hlo, hhi⟩ := mkWall_coords hmk
  have he0mem : e0 ∈ (allEdges rooms).filter (fun ed => edgeKey ed = k) :=
    List.mem_of_mem_head? hhead
  have hkey : edgeKey e0 = k := by
    have := List.of_mem_filter he0mem
    simpa using this
  have hgroup : wallGroup rooms w.orientation (wallPos w) =
      (allEdges rooms).filter (fun ed => edgeKey ed = k) := by
    unfold wallGroup
    rw [horient, hpos, ← hkey]
    rfl
  rw [hgroup, hlo, hhi, htype, horient]
  rw [← isInteriorB_iff_specInterior]
  by_cases hib : isInteriorB e0.orient
      ((allEdges rooms).filter (fun ed => edgeKey ed = k)) p.1 p.2 = true
  · rw [if_pos hib]
    simp [hib]
  · rw [if_neg hib]
    simp only [Bool.not_eq_true] at hib
    rw [hib]
    simp

/-- Witness for C2: the seed's interior wall at `x = 4.5, z ∈ [0, 6]`
satisfies the spec-side classification rule. -/
theorem deriveWalls_interior_iff_witness :
    ∃ w ∈ deriveWalls createInitialRooms,
      w.type = .interior ∧
      specInterior w.orientation
        (wallGroup createInitialRooms w.orientation (wallPos w))
        (spanLo w) (spanHi w) := by
  have hmem : seedInteriorWall ∈ deriveWalls createInitialRooms := by decide
  exact ⟨seedInteriorWall, hmem, rfl,
    (deriveWalls_interior_iff createInitialRooms _ hmem).mp rfl⟩

/-- C7 amended: for every room map satisfying the room invariants,
every interior wall has at least 2 distinct `roomIds` entries and every
exterior wall at least 1 (the exact counts of the original claim fail;
see the stacked-rooms counterexample). -/
theorem roomIds_card_bounds (rooms : Rooms) (_hinv : storeInvariants rooms) :
    ∀ w ∈ deriveWalls rooms,
      (w.type = .interior → 2 ≤ w.roomIds.toFinset.card) ∧
      (w.type = .exterior → 1 ≤ w.roomIds.toFinset.card) := by
  intro w hw
  obtain ⟨k, _, hpg⟩ := of_mem_deriveWalls hw
  obtain ⟨e0, _, p, _, hmk⟩ := of_mem_processGroup hpg
  obtain ⟨hne, _, htype, _, _, _, hroom⟩ := mkWall_eq_some hmk
  constructor
  · intro hint
    have hib : isInteriorB e0.orient
        ((allEdges rooms).filter (fun ed => edgeKey ed = k)) p.1 p.2 = true := by
      by_contra hx
      rw [Bool.not_eq_true] at hx
      rw [hx] at htype
      rw [hint] at htype
      simp at htype
    have htwo : ∃ a ∈ w.roomIds.toFinset, ∃ b ∈ w.roomIds.toFinset, a ≠ b := by
      cases ho : e0.orient with
      | vertical =>
        rw [ho] at hib
        simp only [isInteriorB, List.any_eq_true, decide_eq_true_eq] at hib
        obtain ⟨a, ha, b, hb, hab⟩ := hib
        refine ⟨a, ?_, b, ?_, hab⟩
        · rw [List.mem_toFinset, hroom]
          exact mem_containing_of_posOnly ha
        · rw [List.mem_toFinset, hroom]
          exact mem_containing_of_negOnly hb
      | horizontal =>
        rw [ho] at hib
        simp only [isInteriorB, Bool.or_eq_true, decide_eq_true_eq] at hib
        rcases hib with h2 | h2
        · obtain ⟨a, ha, b, hb, hab⟩ :=
            two_le_length_exists (posOnlyList_nodup
              ((allEdges rooms).filter (fun ed => edgeKey ed = k)) p.1 p.2) h2
          refine ⟨a, ?_, b, ?_, hab⟩
          · rw [List.mem_toFinset, hroom]
            exact mem_containing_of_posOnly ha
          · rw [List.mem_toFinset, hroom]
            exact mem_containing_of_posOnly hb
        · obtain ⟨a, ha, b, hb, hab⟩ :=
            two_le_length_exists (negOnlyList_nodup
              ((allEdges rooms).filter (fun ed => edgeKey ed = k)) p.1 p.2) h2
          refine ⟨a, ?_, b, ?_, hab⟩
          · rw [List.mem_toFinset, hroom]
            exact mem_containing_of_negOnly ha
          · rw [List.mem_toFinset, hroom]
            exact mem_containing_of_negOnly hb
    exact Finset.one_lt_card.mpr htwo
  · intro _
    obtain ⟨a, ha⟩ := List.exists_mem_of_ne_nil _ hne
    refine Finset.card_pos.mpr ⟨a, ?_⟩
    rw [List.mem_toFinset, hroom]
    exact ha

/-- Witness for C7's amended theorem: the seed satisfies the store
invariants and its interior wall carries at least two distinct room
ids. -/
theorem roomIds_card_bounds_witness :
    ∃ w ∈ deriveWalls createInitialRooms,
      w.type = .interior ∧ 2 ≤ w.roomIds.toFinset.card := by
  have hmem : seedInteriorWall ∈ deriveWalls createInitialRooms := by decide
  exact ⟨seedInteriorWall, hmem, rfl,
    ((roomIds_card_bounds createInitialRooms (by decide)) _ hmem).1 rfl⟩

/-- C10: every wall returned by `deriveWalls` is normalized with
strictly positive length — its endpoints share the fixed-axis
coordinate of its orientation and the start's varying-axis coordinate
is strictly less than the end's. -/
theorem deriveWalls_normalized (rooms : Rooms) :
    ∀ w ∈ deriveWalls rooms,
      (w.orientation = .horizontal → w.start.z = w.endV.z ∧ w.start.x < w.endV.x) ∧
      (w.orientation = .vertical → w.start.x = w.endV.x ∧ w.start.z < w.endV.z) := by
  intro w hw
  obtain ⟨k, _, hpg⟩ := of_mem_deriveWalls hw
  obtain ⟨e0, _, p, hp, hmk⟩ := of_mem_processGroup hpg
  obtain ⟨_, _, _, horient, hstart, hend, _⟩ := mkWall_eq_some hmk
  have hlt : p.1 < p.2 :=
    zip_tail_lt (groupPoints_sorted _) (groupPoints_nodup _) p hp
  cases ho : e0.orient with
  | horizontal =>
    rw [ho] at horient hstart hend
    rw [if_pos rfl] at hstart hend
    constructor
    · intro _
      rw [hstart, hend]
      exact ⟨rfl, hlt⟩
    · intro hv
      rw [horient] at hv
      cases hv
  | vertical =>
    rw [ho] at horient hstart hend
    rw [if_neg (by simp)] at hstart hend
    constructor
    · intro hh
      rw [horient] at hh
      cases hh
    · intro _
      rw [hstart, hend]
      exact ⟨rfl, hlt⟩

/-- Witness for C10: the seed's interior wall is vertical with equal x
coordinates and strictly increasing z. -/
theorem deriveWalls_normalized_witness :
    ∃ w ∈ deriveWalls createInitialRooms,
      w.orientation = .vertical ∧ w.start.x = w.endV.x ∧ w.start.z < w.endV.z := by
  have hmem : seedInteriorWall ∈ deriveWalls createInitialRooms := by decide
  exact ⟨seedInteriorWall, hmem, rfl,
    (deriveWalls_normalized createInitialRooms _ hmem).2 rfl⟩

/-- C8 counterexample: reversing the iteration order of a two-room store
whose edge positions differ by less than the `toFixed(4)` rounding step
changes the endpoints of the derived walls, so the two outputs do not
denote the same set of walls. -/
theorem derive_walls_order_dependent_at_subrounding :
    RoomsReindex subRoundingRooms subRoundingRoomsRev ∧
    wallSet subRoundingRooms ≠ wallSet subRoundingRoomsRev := by
  constructor
  · refine ⟨subRoundingRoomsRev, ?_, ?_⟩
    · exact List.Perm.swap _ _ _
    · refine List.Forall₂.cons ⟨rfl, rfl, 0, (List.rotate_zero _).symm⟩ ?_
      exact List.Forall₂.cons ⟨rfl, rfl, 0, (List.rotate_zero _).symm⟩ List.Forall₂.nil
  · decide

/-!
## C8: invariance of `deriveWalls` under reindexing
-/

theorem bool_eq_of_iff {a b : Bool} (h : a = true ↔ b = true) : a = b := by
  cases a <;> cases b <;> simp_all

theorem isEmpty_eq_of_mem_iff {l₁ l₂ : List String}
    (h : ∀ x, x ∈ l₁ ↔ x ∈ l₂) : l₁.isEmpty = l₂.isEmpty := by
  cases l₁ with
  | nil =>
    cases l₂ with
    | nil => rfl
    | cons b t => exact absurd ((h b).mpr (List.mem_cons_self b t)) (List.not_mem_nil b)
  | cons a t =>
    cases l₂ with
    | nil => exact absurd ((h a).mp (List.mem_cons_self a t)) (List.not_mem_nil a)
    | cons b t2 => rfl

theorem zip_rotate {α β : Type} (l₁ : List α) (l₂ : List β) (k : ℕ)
    (h : l₁.length = l₂.length) :
    (l₁.rotate k).zip (l₂.rotate k) = (l₁.zip l₂).rotate k := by
  rcases Nat.eq_zero_or_pos l₁.length with h0 | hpos
  · have h1 : l₁ = [] := List.eq_nil_of_length_eq_zero h0
    have h2 : l₂ = [] := List.eq_nil_of_length_eq_zero (h ▸ h0)
    subst h1
    subst h2
    simp
  · have hzlen : (l₁.zip l₂).length = l₁.length := by
      rw [List.length_zip, ← h, Nat.min_self]
    have hm : k % l₁.length ≤ l₁.length := le_of_lt (Nat.mod_lt _ hpos)
    have hm' : k % l₁.length ≤ l₂.length := by
      rw [← h]
      exact hm
    have hmz : k % l₁.length ≤ (l₁.zip l₂).length := by
      rw [hzlen]
      exact hm
    have e1 : l₁.rotate k = l₁.drop (k % l₁.length) ++ l₁.take (k % l₁.length) := by
      rw [← List.rotate_mod l₁ k, List.rotate_eq_drop_append_take hm]
    have e2 : l₂.rotate k = l₂.drop (k % l₁.length) ++ l₂.take (k % l₁.length) := by
      rw [← List.rotate_mod l₂ k, show k % l₂.length = k % l₁.length from by rw [h],
        List.rotate_eq_drop_append_take hm']
    have e3 : (l₁.zip l₂).rotate k =
        (l₁.zip l₂).drop (k % l₁.length) ++ (l₁.zip l₂).take (k % l₁.length) := by
      rw [← List.rotate_mod (l₁.zip l₂) k,
        show k % (l₁.zip l₂).length = k % l₁.length from by rw [hzlen],
        List.rotate_eq_drop_append_take hmz]
    rw [e1, e2, e3, List.zip_append (by rw [List.length_drop, List.length_drop, h])]
    congr 1
    · exact (List.drop_zipWith).symm
    · exact (List.take_zipWith).symm

theorem getRoomEdges_rotate (r r' : Room) (k : ℕ)
    (hv : r'.vertices = r.vertices.rotate k) :
    getRoomEdges r' = (getRoomEdges r).rotate k := by
  unfold getRoomEdges
  rw [hv, List.rotate_rotate, Nat.add_comm, ← List.rotate_rotate,
    zip_rotate _ _ k (by rw [List.length_rotate])]

theorem roomEdgeInfos_perm {r r' : Room} (hrr : ReindexedRoom r r') :
    ((getRoomEdges r').map (fun p => edgeInfoOf r'.id p.1 p.2)).Perm
      ((getRoomEdges r).map (fun p => edgeInfoOf r.id p.1 p.2)) := by
  obtain ⟨hid, _, k, hv⟩ := hrr
  rw [hid, getRoomEdges_rotate r r' k hv]
  exact (List.rotate_perm _ k).map _

theorem allEdges_perm_forall₂ {t s₂ : Rooms}
    (h : List.Forall₂ ReindexedRoom t s₂) :
    (allEdges s₂).Perm (allEdges t) := by
  induction h with
  | nil => exact List.Perm.refl _
  | @cons a b l₁ l₂ hab _ ih =>
    show (allEdges (b :: l₂)).Perm (allEdges (a :: l₁))
    unfold allEdges
    rw [List.flatMap_cons, List.flatMap_cons]
    exact (roomEdgeInfos_perm hab).append ih

theorem allEdges_perm_of_reindex {s₁ s₂ : Rooms} (h : RoomsReindex s₁ s₂) :
    (allEdges s₁).Perm (allEdges s₂) := by
  obtain ⟨t, hperm, hfa⟩ := h
  exact (hperm.flatMap_right _).trans (allEdges_perm_forall₂ hfa).symm

theorem coverRooms_eq_of_perm {g₁ g₂ : List EdgeInfo} (h : g₁.Perm g₂)
    (d : Bool) (s e : ℚ) : coverRooms g₁ d s e = coverRooms g₂ d s e :=
  List.toFinset_eq_of_perm _ _ ((h.filter _).map _)

theorem groupPoints_eq_of_perm {g₁ g₂ : List EdgeInfo} (h : g₁.Perm g₂) :
    groupPoints g₁ = groupPoints g₂ := by
  refine List.eq_of_perm_of_sorted ?_ (groupPoints_sorted g₁) (groupPoints_sorted g₂)
  have h3 : (dedupF (g₁.flatMap fun e => [e.segStart, e.segEnd])).Perm
      (dedupF (g₂.flatMap fun e => [e.segStart, e.segEnd])) := by
    rw [List.perm_ext_iff_of_nodup (nodup_dedupF _) (nodup_dedupF _)]
    intro a
    rw [mem_dedupF, mem_dedupF, List.mem_flatMap, List.mem_flatMap]
    constructor
    · rintro ⟨x, hx, hax⟩
      exact ⟨x, h.mem_iff.mp hx, hax⟩
    · rintro ⟨x, hx, hax⟩
      exact ⟨x, h.mem_iff.mpr hx, hax⟩
  exact (List.perm_insertionSort _ _).trans
    (h3.trans (List.perm_insertionSort _ _).symm)

theorem mkWall_canon_congr {g₁ g₂ : List EdgeInfo} (hperm : g₁.Perm g₂)
    (o : Orient) (po s e : ℚ) :
    (mkWall o po g₁ s e).map canonWall = (mkWall o po g₂ s e).map canonWall := by
  have hcover : ∀ d, coverRooms g₁ d s e = coverRooms g₂ d s e :=
    fun d => coverRooms_eq_of_perm hperm d s e
  have hmemc : ∀ x, x ∈ containingList g₁ s e ↔ x ∈ containingList g₂ s e := by
    intro x
    unfold containingList
    rw [mem_dedupF, mem_dedupF, List.mem_append, List.mem_append,
      mem_posList_iff, mem_posList_iff, mem_negList_iff, mem_negList_iff,
      hcover true, hcover false]
  have hpos : posOnlySet g₁ s e = posOnlySet g₂ s e := by
    unfold posOnlySet
    rw [hcover true, hcover false]
  have hneg : negOnlySet g₁ s e = negOnlySet g₂ s e := by
    unfold negOnlySet
    rw [hcover true, hcover false]
  have hint : isInteriorB o g₁ s e = isInteriorB o g₂ s e := by
    apply bool_eq_of_iff
    rw [isInteriorB_iff_specInterior, isInteriorB_iff_specInterior]
    cases o with
    | vertical => simp only [specInterior, hpos, hneg]
    | horizontal => simp only [specInterior, hpos, hneg]
  have hfin : (containingList g₁ s e).toFinset = (containingList g₂ s e).toFinset := by
    ext x
    rw [List.mem_toFinset, List.mem_toFinset, hmemc]
  have hemp : (containingList g₁ s e).isEmpty = (containingList g₂ s e).isEmpty :=
    isEmpty_eq_of_mem_iff hmemc
  unfold mkWall
  by_cases h1 : (containingList g₁ s e).isEmpty = true
  · rw [if_pos h1, if_pos (hemp ▸ h1)]
  · rw [if_neg h1, if_neg (fun hx => h1 (hemp ▸ hx))]
    simp only [Option.map_some']
    congr 1
    unfold canonWall
    simp only [hint, hfin]

theorem processGroup_canon_congr {g₁ g₂ : List EdgeInfo} (hperm : g₁.Perm g₂)
    (huni : ∀ e ∈ g₁, ∀ f ∈ g₁, e.orient = f.orient ∧ e.position = f.position) :
    (processGroup g₁).map canonWall = (processGroup g₂).map canonWall := by
  cases hg1 : g₁ with
  | nil =>
    rw [hg1] at hperm
    rw [hperm.symm.eq_nil]
  | cons e0 t₁ =>
    rw [hg1] at hperm huni
    cases hg2 : g₂ with
    | nil =>
      rw [hg2] at hperm
      exact (List.cons_ne_nil _ _ hperm.eq_nil).elim
    | cons f0 t₂ =>
      rw [hg2] at hperm
      have hf0 : f0 ∈ e0 :: t₁ := hperm.mem_iff.mpr (List.mem_cons_self f0 t₂)
      have he0 : e0 ∈ e0 :: t₁ := List.mem_cons_self e0 t₁
      simp only [processGroup]
      rw [List.map_filterMap, List.map_filterMap]
      rw [← groupPoints_eq_of_perm hperm]
      apply List.filterMap_congr
      intro p _
      rw [(huni f0 hf0 e0 he0).1, (huni f0 hf0 e0 he0).2]
      exact mkWall_canon_congr hperm e0.orient e0.position p.1 p.2

theorem mem_deriveWalls_intro {rooms : Rooms} {w : DerivedWall} {k : Orient × ℤ}
    (hk : k ∈ dedupF ((allEdges rooms).map edgeKey))
    (hw : w ∈ processGroup ((allEdges rooms).filter (fun e => edgeKey e = k))) :
    w ∈ deriveWalls rooms := by
  simp only [deriveWalls]
  rw [List.mem_flatMap]
  exact ⟨k, hk, hw⟩

theorem wallSet_eq_of_edges_perm {s₁ s₂ : Rooms}
    (hperm : (allEdges s₁).Perm (allEdges s₂)) (hpe : PositionsExact s₁) :
    wallSet s₁ = wallSet s₂ := by
  have hgroup : ∀ k : Orient × ℤ,
      (processGroup ((allEdges s₁).filter (fun e => edgeKey e = k))).map canonWall =
        (processGroup ((allEdges s₂).filter (fun e => edgeKey e = k))).map canonWall := by
    intro k
    apply processGroup_canon_congr (hperm.filter _)
    intro e he f hf
    have hek : edgeKey e = k := by simpa using List.of_mem_filter he
    have hfk : edgeKey f = k := by simpa using List.of_mem_filter hf
    have hef : edgeKey e = edgeKey f := hek.trans hfk.symm
    exact ⟨congrArg Prod.fst hef,
      hpe e (List.mem_of_mem_filter he) f (List.mem_of_mem_filter hf) hef⟩
  ext a
  simp only [wallSet, List.mem_toFinset, List.mem_map]
  constructor
  · rintro ⟨w, hw, rfl⟩
    obtain ⟨k, hk, hpg⟩ := of_mem_deriveWalls hw
    have hkeys2 : k ∈ dedupF ((allEdges s₂).map edgeKey) := by
      rw [mem_dedupF, List.mem_map] at hk ⊢
      obtain ⟨e, he, hek⟩ := hk
      exact ⟨e, hperm.mem_iff.mp he, hek⟩
    have hmm : canonWall w ∈
        (processGroup ((allEdges s₂).filter (fun e => edgeKey e = k))).map canonWall := by
      rw [← hgroup k]
      exact List.mem_map_of_mem _ hpg
    rw [List.mem_map] at hmm
    obtain ⟨w2, hw2, hc⟩ := hmm
    exact ⟨w2, mem_deriveWalls_intro hkeys2 hw2, hc⟩
  · rintro ⟨w, hw, rfl⟩
    obtain ⟨k, hk, hpg⟩ := of_mem_deriveWalls hw
    have hkeys1 : k ∈ dedupF ((allEdges s₁).map edgeKey) := by
      rw [mem_dedupF, List.mem_map] at hk ⊢
      obtain ⟨e, he, hek⟩ := hk
      exact ⟨e, hperm.mem_iff.mpr he, hek⟩
    have hmm : canonWall w ∈
        (processGroup ((allEdges s₁).filter (fun e => edgeKey e = k))).map canonWall := by
      rw [hgroup k]
      exact List.mem_map_of_mem _ hpg
    rw [List.mem_map] at hmm
    obtain ⟨w1, hw1, hc⟩ := hmm
    exact ⟨w1, mem_deriveWalls_intro hkeys1 hw1, hc⟩

/-- C8 amended: provided any two edge positions colliding under
`toFixed(4)` rounding are exactly equal, `deriveWalls` is invariant
under rotating any room's vertex list and under the iteration order of
the room map — the output denotes the same set of walls (same id, type,
orientation, endpoints, and `roomIds` set).  (Unrestricted, the claim
fails at sub-rounding position differences; see the counterexample.) -/
theorem deriveWalls_reindex_invariant (s₁ s₂ : Rooms)
    (hre : RoomsReindex s₁ s₂) (hpe : PositionsExact s₁) :
    wallSet s₁ = wallSet s₂ :=
  wallSet_eq_of_edges_perm (allEdges_perm_of_reindex hre) hpe

/-- Witness for C8's amended theorem: the seed store compared with its
reversed, vertex-rotated reindexing. -/
theorem deriveWalls_reindex_invariant_witness :
    wallSet createInitialRooms = wallSet createInitialRoomsReindexed := by
  apply deriveWalls_reindex_invariant
  · refine ⟨createInitialRoomsSwapped, ?_, ?_⟩
    · exact List.Perm.swap _ _ _
    · refine List.Forall₂.cons ⟨rfl, rfl, 1, by decide⟩ ?_
      exact List.Forall₂.cons ⟨rfl, rfl, 2, by decide⟩ List.Forall₂.nil
  · decide
